import Mathlib

/-!
Verification of the cobutler graph store (Go package `db`) and the
precision-controlled candidate selection of the HTTP API layer
(`pkg/cobutler/api/server.go`), via a shallow embedding.

The SQLite-backed store is modelled as in-memory tables (lists of rows, in
rowid/insertion order).  SQLite's `last_insert_rowid` is modelled as
max-existing-id + 1.  Storage I/O failures are outside the pure model, so
operations that in Go return `error` only on I/O are total here; operations
whose Go code can return a non-I/O error are modelled with `Except`.
Randomness (`ORDER BY RANDOM() LIMIT 5`, `rand.Intn`) is modelled by oracle
parameters so that theorems quantify over every possible random outcome.
-/

namespace Cobutler

/-- A row of the `tokens` table: `(id, text, is_word)`. -/
structure Token where
  id : Nat
  text : String
  isWord : Bool
  deriving DecidableEq, Repr

/-- A row of the `nodes` table: `(id, token0_id .. token{order-1}_id, count)`;
the token-id columns are modelled as a list whose length is the store order. -/
structure Node where
  id : Nat
  tokens : List Nat
  count : Nat
  deriving DecidableEq, Repr

/-- A row of the `edges` table: `(id, prev_node, next_node, has_space, count)`.
`has_space` is an `INTEGER` 0/1 column in the schema, modelled as `Bool`. -/
structure Edge where
  id : Nat
  prevNode : Nat
  nextNode : Nat
  hasSpace : Bool
  count : Nat
  deriving DecidableEq, Repr

/-- The graph store (`db.Graph` plus its SQLite tables). -/
structure Store where
  order : Nat
  tokens : List Token
  nodes : List Node
  edges : List Edge
  deriving DecidableEq, Repr

/-- SQLite rowid allocation: one more than the largest existing id. -/
def freshId (ids : List Nat) : Nat := ids.foldr max 0 + 1

/-- The per-character test of `GetTokenByText`: Go checks the ASCII ranges
`a-z`, `A-Z`, `0-9` and the underscore. -/
def isWordChar (c : Char) : Bool :=
  (('a' ≤ c && c ≤ 'z') || ('A' ≤ c && c ≤ 'Z') || ('0' ≤ c && c ≤ '9') || c = '_')

/-- Model of `Graph.GetTokenByText`: look a token up by text; when absent and
`create` is set, insert it with the computed `is_word` flag and return the
fresh rowid; when absent and `create` is not set, return id 0 with no error.
The `Except` layer mirrors the Go `error` result; in this pure model the
error branch (storage failure) never fires. -/
def GetTokenByText (st : Store) (text : String) (create : Bool) :
    Except String (Nat × Store) :=
  match st.tokens.find? (fun t => t.text = text) with
  | some t => .ok (t.id, st)
  | none =>
    if !create then .ok (0, st)
    else
      let isWord := text.toList.any isWordChar
      let newId := freshId (st.tokens.map (fun t => t.id))
      .ok (newId, { st with tokens := st.tokens ++ [⟨newId, text, isWord⟩] })

/-- Model of `Graph.GetNodeByTokens`: fails unless exactly `order` token ids are
given; otherwise looks the exact tuple up, inserting a new node row with
count 0 when no row matches. -/
def GetNodeByTokens (st : Store) (tokenIds : List Nat) :
    Except String (Nat × Store) :=
  if tokenIds.length ≠ st.order then .error "invalid order"
  else
    match st.nodes.find? (fun n => n.tokens = tokenIds) with
    | some n => .ok (n.id, st)
    | none =>
      let newId := freshId (st.nodes.map (fun n => n.id))
      .ok (newId, { st with nodes := st.nodes ++ [⟨newId, tokenIds, 0⟩] })

/-- The `WHERE prev_node = ? AND next_node = ? AND has_space = ?` match of
`AddEdge`. -/
def edgeMatches (prevNode nextNode : Nat) (hasSpace : Bool) (e : Edge) : Bool :=
  decide (e.prevNode = prevNode ∧ e.nextNode = nextNode ∧ e.hasSpace = hasSpace)

/-- Model of `Graph.AddEdge`: `UPDATE edges SET count = count + 1` on every matching
row; if no row was affected, `INSERT` a new edge with count 1. -/
def AddEdge (st : Store) (prevNode nextNode : Nat) (hasSpace : Bool) : Store :=
  let matched := st.edges.countP (edgeMatches prevNode nextNode hasSpace)
  let updated := st.edges.map (fun e =>
    if edgeMatches prevNode nextNode hasSpace e then { e with count := e.count + 1 } else e)
  if matched = 0 then
    { st with edges := st.edges ++
        [⟨freshId (st.edges.map (fun e => e.id)), prevNode, nextNode, hasSpace, 1⟩] }
  else
    { st with edges := updated }

/-- Iterates `n` consecutive `AddEdge` calls with the same arguments. -/
def addEdgeTimes (st : Store) (prevNode nextNode : Nat) (hasSpace : Bool) : Nat → Store
  | 0 => st
  | n + 1 => AddEdge (addEdgeTimes st prevNode nextNode hasSpace n) prevNode nextNode hasSpace

/-- One pass of the exchange sort used by `selectReplyByPrecision` (the Go
double loop swaps `a[i]` and `a[j]` when they are out of order, i.e. when
`r a[i] a[j]` fails): `x` is the element currently at position `i`, the
result pairs the element left at position `i` after the pass with the
elements left at positions `i+1 ..`. -/
def selPass (r : α → α → Prop) [DecidableRel r] : α → List α → α × List α
  | x, [] => (x, [])
  | x, y :: ys =>
    if r x y then
      let p := selPass r x ys
      (p.1, y :: p.2)
    else
      let p := selPass r y ys
      (p.1, x :: p.2)

/-- The full exchange sort of `selectReplyByPrecision` (`for i; for j > i;
swap when out of order`); also used to model SQLite's `ORDER BY`. -/
def selSort (r : α → α → Prop) [DecidableRel r] : List α → List α
  | [] => []
  | x :: xs =>
    let p := selPass r x xs
    p.1 :: selSort r p.2
termination_by l => l.length
decreasing_by
  have h : ∀ (x : α) (ys : List α), (selPass r x ys).2.length = ys.length := by
    intro x ys
    induction ys generalizing x with
    | nil => rfl
    | cons y ys ih =>
      simp only [selPass]
      split
      · simp [ih]
      · simp [ih]
  simp [h]

/-- Model of `Graph.findEdgesFromNode`: `SELECT id FROM edges WHERE prev_node = ?
ORDER BY count DESC LIMIT 20`. -/
def findEdgesFromNode (st : Store) (nodeId : Nat) : List Nat :=
  ((selSort (fun a b : Edge => b.count ≤ a.count)
      (st.edges.filter (fun e => decide (e.prevNode = nodeId)))).take 20).map
    (fun e => e.id)

/-- Model of `Graph.findNodeContainingContext`: exact tuple via `GetNodeByTokens`
when the context length equals the order (note: this creates the node when
missing); otherwise the first of the nodes whose `token0_id` is among the
first `min (len, order)` context ids (`ErrNoRows` becomes id 0). -/
def findNodeContainingContext (st : Store) (tokenIds : List Nat) :
    Except String (Nat × Store) :=
  if tokenIds.length = st.order then GetNodeByTokens st tokenIds
  else
    let matchLength := min tokenIds.length st.order
    let matchIds := tokenIds.take matchLength
    match st.nodes.find? (fun n => matchIds.contains (n.tokens.getD 0 0)) with
    | some n => .ok (n.id, st)
    | none => .ok (0, st)

/-- Model of `Graph.FindEdgesForContext`: rejects contexts of fewer than 2 ids,
locates a node for the context, and returns up to 20 of its outgoing edges
by descending count.  The store is threaded because the locate step can
insert a node. -/
def FindEdgesForContext (st : Store) (tokenIds : List Nat) :
    Except String (List Nat) × Store :=
  if tokenIds.length < 2 then (.error "context too short", st)
  else
    match findNodeContainingContext st tokenIds with
    | .error _ => (.error "no matching context found", st)
    | .ok (nodeId, st1) =>
      if nodeId = 0 then (.error "no matching context found", st1)
      else (.ok (findEdgesFromNode st1 nodeId), st1)

/-- The `WHERE prev_node = ?` (forward) / `WHERE next_node = ?` (backward)
restriction of the walk query. -/
def incidentEdges (st : Store) (direction : Bool) (cur : Nat) : List Edge :=
  st.edges.filter (fun e => decide ((if direction then e.prevNode else e.nextNode) = cur))

/-- The node an edge moves to, in the given direction. -/
def walkTarget (direction : Bool) (e : Edge) : Nat :=
  if direction then e.nextNode else e.prevNode

/-- Models `ORDER BY RANDOM() LIMIT 5`: an oracle-chosen list of row positions
selects up to 5 of the incident edges, in any order. -/
def sampleEdges (l : List Edge) (sel : List Nat) : List Edge :=
  (sel.take 5).filterMap (fun j => l[j]?)

/-- The loop body of `Graph.SearchRandomWalk`, fuelled by the remaining
iterations of `for i := 0; i < maxLength; i++`.  At each step the sampled
incident edges are scanned, skipping self-steps (`targetID == currentID`);
a dead end ends the walk, otherwise one candidate is chosen (`edges[0]`,
or `edges[rand.Intn(len)]` when there are several), recorded, and the walk
moves on unless the end node was reached. -/
def walkAux (st : Store) (endId : Nat) (direction : Bool)
    (sel : Nat → List Nat) (rnd : Nat → Nat) : Nat → Nat → Nat → List Edge
  | 0, _, _ => []
  | fuel + 1, step, cur =>
    let cands := (sampleEdges (incidentEdges st direction cur) (sel step)).filter
      (fun e => decide (walkTarget direction e ≠ cur))
    match cands with
    | [] => []
    | c :: cs =>
      let n := cs.length + 1
      let chosen := (c :: cs).getD (if 1 < n then rnd step % n else 0) c
      let nxt := walkTarget direction chosen
      chosen :: (if nxt = endId then [] else walkAux st endId direction sel rnd fuel (step + 1) nxt)

/-- Model of `Graph.SearchRandomWalk`, keeping the chosen edge rows
(`maxLength = 15`). -/
def SearchRandomWalkRows (st : Store) (startId endId : Nat) (direction : Bool)
    (sel : Nat → List Nat) (rnd : Nat → Nat) : List Edge :=
  walkAux st endId direction sel rnd 15 0 startId

/-- Model of `Graph.SearchRandomWalk`: the ids of the chosen edges, in walk order. -/
def SearchRandomWalk (st : Store) (startId endId : Nat) (direction : Bool)
    (sel : Nat → List Nat) (rnd : Nat → Nat) : List Nat :=
  (SearchRandomWalkRows st startId endId direction sel rnd).map (fun e => e.id)

/-- A list of edges forms a connected chain starting at the given node:
each edge leaves the current node and the walk moves to its target. -/
def IsChain (direction : Bool) : Nat → List Edge → Prop
  | _, [] => True
  | cur, e :: es =>
    (if direction then e.prevNode else e.nextNode) = cur ∧
    IsChain direction (walkTarget direction e) es

/-- Go `unicode.IsSpace` (the Unicode `White_Space` property), used by
`strings.Fields`. -/
def goIsSpace (c : Char) : Bool :=
  c.val = 0x09 || c.val = 0x0A || c.val = 0x0B || c.val = 0x0C || c.val = 0x0D ||
  c.val = 0x20 || c.val = 0x85 || c.val = 0xA0 || c.val = 0x1680 ||
  (0x2000 ≤ c.val && c.val ≤ 0x200A) ||
  c.val = 0x2028 || c.val = 0x2029 || c.val = 0x202F || c.val = 0x205F || c.val = 0x3000

/-- Model of `strings.Fields`, splitting around runs of white space; `acc` holds the
(reversed) word being read. -/
def fieldsAux : List Char → List Char → List (List Char)
  | acc, [] => if acc.isEmpty then [] else [acc.reverse]
  | acc, c :: cs =>
    if goIsSpace c then
      if acc.isEmpty then fieldsAux [] cs else acc.reverse :: fieldsAux [] cs
    else fieldsAux (c :: acc) cs

/-- Model of `strings.Fields`. -/
def fields (s : List Char) : List (List Char) := fieldsAux [] s

/-- Computes `len(strings.Fields(s))`, the word count used throughout the selector. -/
def wordCount (s : String) : Nat := (fields s.toList).length

/-- Model of `strings.Join(words, " ")`. -/
def joinWords : List (List Char) → List Char
  | [] => []
  | [w] => w
  | w :: ws => w ++ ' ' :: joinWords ws

/-- Model of `limitWords`: with a positive bound, a text of more than `maxWords`
fields is replaced by its first `maxWords` fields joined by single spaces;
otherwise the text is returned unchanged. -/
def limitWords (text : String) (maxWords : Int) : String :=
  if maxWords ≤ 0 then text
  else
    let words := fields text.toList
    if (words.length : Int) ≤ maxWords then text
    else ⟨joinWords (words.take maxWords.toNat)⟩

/-- The shortest-reply scan of `selectReplyByPrecision` (`precision > 0.9`
branch): strict `<` keeps the earliest reply on ties.  `bestLen` carries
`len(strings.Fields(best))` as in the Go loop. -/
def shortestReply (best : String) (bestLen : Nat) : List String → String
  | [] => best
  | r :: rs =>
    if wordCount r < bestLen then shortestReply r (wordCount r) rs
    else shortestReply best bestLen rs

/-- Model of `selectReplyByPrecision`.  The Go median branch sorts `(idx, length)`
pairs and returns `replies[sorted[len/2].idx]`; the index is modelled by
carrying the reply string in the pair.  `rnd` stands for `rand.Intn` in the
low-precision branch. -/
def selectReplyByPrecision (replies : List String) (precision : ℚ) (rnd : Nat) : String :=
  match replies with
  | [] => ""
  | [r] => r
  | r0 :: rs =>
    if precision > 9/10 then
      shortestReply r0 (wordCount r0) rs
    else if precision > 7/10 then
      let pairs := (r0 :: rs).map (fun s => (s, wordCount s))
      let sortedLengths := selSort (fun a b : String × Nat => a.2 ≤ b.2) pairs
      (sortedLengths.getD (sortedLengths.length / 2) ("", 0)).1
    else
      (r0 :: rs).getD (rnd % (r0 :: rs).length) ""

/-- The precision defaulting/clamping at the top of `Handler.Predict`:
`<= 0` becomes the 0.7 default, `> 1` is capped at 1. -/
def clampPrecision (p : ℚ) : ℚ :=
  if p ≤ 0 then 7/10 else if p > 1 then 1 else p

/-- The candidate count of `Handler.Predict`: 5 above 0.9, 3 above 0.7,
otherwise a single reply. -/
def numResponses (p : ℚ) : Nat :=
  if p > 7/10 then (if p > 9/10 then 5 else 3) else 1

/-! ## Token claims -/

theorem selPass_length (r : α → α → Prop) [DecidableRel r] (x : α) (ys : List α) :
    (selPass r x ys).2.length = ys.length := by
  induction ys generalizing x with
  | nil => rfl
  | cons y ys ih =>
    simp only [selPass]
    split
    · simp [ih]
    · simp [ih]

theorem isWordChar_iff (c : Char) :
    isWordChar c = true ↔ (c.isAlphanum = true ∨ c = '_') := by
  have ha : ('a').val = 97 := rfl
  have hz : ('z').val = 122 := rfl
  have hA : ('A').val = 65 := rfl
  have hZ : ('Z').val = 90 := rfl
  have h0 : ('0').val = 48 := rfl
  have h9 : ('9').val = 57 := rfl
  simp only [isWordChar, Char.isAlphanum, Char.isAlpha, Char.isDigit, Char.isUpper,
    Char.isLower, Bool.or_eq_true, Bool.and_eq_true, decide_eq_true_eq, ge_iff_le,
    Char.le_def, ha, hz, hA, hZ, h0, h9]
  tauto

theorem find?_tokens_eq_none {st : Store} {text : String}
    (h : ∀ t ∈ st.tokens, t.text ≠ text) :
    st.tokens.find? (fun t => t.text = text) = none := by
  rw [List.find?_eq_none]
  intro t ht
  simp [h t ht]

/-- C9: looking up a text that is in no token row, with `create` unset,
returns id 0 and a nil error, and leaves the store alone. -/
theorem C9_get_token_missing_no_error (st : Store) (text : String)
    (h : ∀ t ∈ st.tokens, t.text ≠ text) :
    GetTokenByText st text false = .ok (0, st) := by
  unfold GetTokenByText
  rw [find?_tokens_eq_none h]
  rfl

theorem C9_witness :
    (∀ t ∈ (⟨1, [⟨1, "hello", true⟩], [], []⟩ : Store).tokens, t.text ≠ "absent") ∧
    GetTokenByText (⟨1, [⟨1, "hello", true⟩], [], []⟩ : Store) "absent" false =
      .ok (0, (⟨1, [⟨1, "hello", true⟩], [], []⟩ : Store)) :=
  ⟨by decide, C9_get_token_missing_no_error _ "absent" (by decide)⟩

/-- C7: a token created by `GetTokenByText` with `create` set stores
`is_word = true` exactly when the text has an alphanumeric or underscore
character. -/
theorem C7_is_word_iff (st : Store) (text : String)
    (h : ∀ t ∈ st.tokens, t.text ≠ text) :
    ∃ tok : Token,
      GetTokenByText st text true = .ok (tok.id, { st with tokens := st.tokens ++ [tok] }) ∧
      tok.text = text ∧
      (tok.isWord = true ↔ ∃ c ∈ text.toList, (c.isAlphanum = true ∨ c = '_')) := by
  refine ⟨⟨freshId (st.tokens.map (fun t => t.id)), text, text.toList.any isWordChar⟩, ?_, rfl, ?_⟩
  · unfold GetTokenByText
    rw [find?_tokens_eq_none h]
    rfl
  · simp only [List.any_eq_true, isWordChar_iff]

theorem C7_witness :
    (∀ t ∈ (⟨1, [], [], []⟩ : Store).tokens, t.text ≠ "a_b!") ∧
    ∃ tok : Token,
      GetTokenByText (⟨1, [], [], []⟩ : Store) "a_b!" true =
        .ok (tok.id, { (⟨1, [], [], []⟩ : Store) with tokens := [] ++ [tok] }) ∧
      tok.text = "a_b!" ∧
      (tok.isWord = true ↔ ∃ c ∈ ("a_b!").toList, (c.isAlphanum = true ∨ c = '_')) :=
  ⟨by decide, C7_is_word_iff (⟨1, [], [], []⟩ : Store) "a_b!" (by decide)⟩

/-! ## Edge accumulation (C5) -/

theorem edgeMatches_incr (pn nn : Nat) (hs : Bool) (e : Edge) :
    edgeMatches pn nn hs
      (if edgeMatches pn nn hs e then { e with count := e.count + 1 } else e) =
    edgeMatches pn nn hs e := by
  by_cases h : edgeMatches pn nn hs e = true <;> simp only [h, if_true, if_false] <;>
    simp_all [edgeMatches]

/-- C5: starting with no edge for `(pn, nn, hs)`, `n ≥ 1` consecutive
`AddEdge` calls leave exactly one matching edge row, with count `n`. -/
theorem C5_add_edge_accumulates (st : Store) (pn nn : Nat) (hs : Bool)
    (h0 : st.edges.filter (edgeMatches pn nn hs) = []) (n : Nat) (hn : 1 ≤ n) :
    ∃ e : Edge,
      (addEdgeTimes st pn nn hs n).edges.filter (edgeMatches pn nn hs) = [e] ∧
      e.count = n := by
  induction n with
  | zero => omega
  | succ n ih =>
    rcases Nat.eq_or_lt_of_le hn with h1 | h1
    · -- n + 1 = 1 : the first call inserts a fresh edge with count 1
      have hn0 : n = 0 := by omega
      subst hn0
      refine ⟨⟨freshId (st.edges.map (fun e => e.id)), pn, nn, hs, 1⟩, ?_, rfl⟩
      show (AddEdge st pn nn hs).edges.filter (edgeMatches pn nn hs) = _
      have hcount : st.edges.countP (edgeMatches pn nn hs) = 0 := by
        rw [List.countP_eq_length_filter, h0]
        rfl
      simp only [AddEdge, hcount, if_true]
      rw [List.filter_append, h0]
      simp [edgeMatches]
    · -- n ≥ 1 : the matching row exists and is incremented
      obtain ⟨e, he, hec⟩ := ih (by omega)
      have hcount : (addEdgeTimes st pn nn hs n).edges.countP (edgeMatches pn nn hs) = 1 := by
        rw [List.countP_eq_length_filter, he]
        rfl
      refine ⟨{ e with count := e.count + 1 }, ?_, by simp [hec]⟩
      show (AddEdge (addEdgeTimes st pn nn hs n) pn nn hs).edges.filter _ = _
      simp only [AddEdge, hcount, if_neg (by omega : ¬ (1 : Nat) = 0)]
      rw [List.filter_map]
      have hcongr :
          (addEdgeTimes st pn nn hs n).edges.filter
            (fun x => edgeMatches pn nn hs
              (if edgeMatches pn nn hs x then { x with count := x.count + 1 } else x)) =
          (addEdgeTimes st pn nn hs n).edges.filter (edgeMatches pn nn hs) := by
        apply List.filter_congr
        intro x _
        rw [edgeMatches_incr]
      rw [Function.comp_def, hcongr, he]
      have hm : edgeMatches pn nn hs e = true := by
        have := List.mem_filter.mp (he ▸ List.mem_singleton_self e)
        exact this.2
      simp only [List.map_cons, List.map_nil, hm, if_true]

theorem C5_witness :
    ((⟨1, [], [], []⟩ : Store).edges.filter (edgeMatches 3 4 true) = [] ∧ 1 ≤ 2) ∧
    ∃ e : Edge,
      (addEdgeTimes (⟨1, [], [], []⟩ : Store) 3 4 true 2).edges.filter (edgeMatches 3 4 true) = [e] ∧
      e.count = 2 :=
  ⟨⟨by decide, by decide⟩,
    C5_add_edge_accumulates (⟨1, [], [], []⟩ : Store) 3 4 true (by decide) 2 (by decide)⟩

theorem shortestReply_spec (rs : List String) : ∀ best : String,
    ∃ i, i < (best :: rs).length ∧
      shortestReply best (wordCount best) rs = (best :: rs).getD i "" ∧
      (∀ j, j < (best :: rs).length →
        wordCount ((best :: rs).getD i "") ≤ wordCount ((best :: rs).getD j "")) ∧
      (∀ j, j < i → wordCount ((best :: rs).getD i "") < wordCount ((best :: rs).getD j "")) := by
  induction rs with
  | nil =>
    intro best
    refine ⟨0, by simp, rfl, ?_, by omega⟩
    intro j hj
    simp only [List.length_cons, List.length_nil] at hj
    interval_cases j
    simp
  | cons r rs ih =>
    intro best
    by_cases h : wordCount r < wordCount best
    · obtain ⟨i, hi, heq, hmin, hfirst⟩ := ih r
      refine ⟨i + 1, by simpa using hi, ?_, ?_, ?_⟩
      · simpa [shortestReply, h] using heq
      · intro j hj
        simp only [List.getD_cons_succ]
        rcases j with _ | j
        · calc wordCount ((r :: rs).getD i "") ≤ wordCount r := by
                simpa using hmin 0 (by simp)
            _ ≤ wordCount best := le_of_lt h
        · simpa using hmin j (by simpa using hj)
      · intro j hj
        simp only [List.getD_cons_succ]
        rcases j with _ | j
        · calc wordCount ((r :: rs).getD i "") ≤ wordCount r := by
                simpa using hmin 0 (by simp)
            _ < wordCount best := h
        · simpa using hfirst j (by omega)
    · obtain ⟨i, hi, heq, hmin, hfirst⟩ := ih best
      rcases i with _ | k
      · refine ⟨0, by simp, ?_, ?_, by omega⟩
        · simp only [List.getD_cons_zero] at heq ⊢
          simpa [shortestReply, h] using heq
        · intro j hj
          simp only [List.getD_cons_zero]
          rcases j with _ | j
          · simp
          rcases j with _ | j
          · simpa using le_of_not_lt h
          · have hb : j + 1 < (best :: rs).length := by
              simp only [List.length_cons] at hj ⊢
              omega
            simpa using hmin (j + 1) hb
      · have hk2 : k + 2 < (best :: r :: rs).length := by
          simp only [List.length_cons] at hi ⊢
          omega
        refine ⟨k + 2, hk2, ?_, ?_, ?_⟩
        · simp only [List.getD_cons_succ] at heq ⊢
          simpa [shortestReply, h] using heq
        · intro j hj
          simp only [List.getD_cons_succ]
          rcases j with _ | j
          · simpa using hmin 0 (by simp)
          rcases j with _ | j
          · calc wordCount (rs.getD k "") ≤ wordCount best := by simpa using hmin 0 (by simp)
              _ ≤ wordCount r := le_of_not_lt h
          · have hb : j + 1 < (best :: rs).length := by
              simp only [List.length_cons] at hj ⊢
              omega
            simpa using hmin (j + 1) hb
        · intro j hj
          simp only [List.getD_cons_succ]
          rcases j with _ | j
          · simpa using hfirst 0 (by omega)
          rcases j with _ | j
          · calc wordCount (rs.getD k "") < wordCount best := by simpa using hfirst 0 (by omega)
              _ ≤ wordCount r := le_of_not_lt h
          · simpa using hfirst (j + 1) (by omega)

/-- C3: with request precision above 0.9 the Predict pipeline generates
exactly 5 candidates and `selectReplyByPrecision` returns the candidate
with the fewest words, ties broken in favour of the earliest candidate. -/
theorem C3_high_precision_shortest (p : ℚ) (rnd : Nat) (replies : List String)
    (hp : 9/10 < p) (hlen : replies.length = numResponses (clampPrecision p)) :
    numResponses (clampPrecision p) = 5 ∧
    ∃ i, i < replies.length ∧
      selectReplyByPrecision replies (clampPrecision p) rnd = replies.getD i "" ∧
      (∀ j, j < replies.length →
        wordCount (replies.getD i "") ≤ wordCount (replies.getD j "")) ∧
      (∀ j, j < i → wordCount (replies.getD i "") < wordCount (replies.getD j "")) := by
  have hcl : 9/10 < clampPrecision p := by
    unfold clampPrecision
    split
    · linarith
    · split
      · norm_num
      · exact hp
  have h5 : numResponses (clampPrecision p) = 5 := by
    unfold numResponses
    rw [if_pos (by linarith), if_pos hcl]
  refine ⟨h5, ?_⟩
  rw [h5] at hlen
  match replies, hlen with
  | r0 :: r1 :: rs, _ =>
    show ∃ i, _
    have hsel : selectReplyByPrecision (r0 :: r1 :: rs) (clampPrecision p) rnd =
        shortestReply r0 (wordCount r0) (r1 :: rs) := by
      simp only [selectReplyByPrecision, if_pos hcl]
    rw [hsel]
    exact shortestReply_spec (r1 :: rs) r0

theorem C3_witness :
    ((9:ℚ)/10 < 19/20 ∧
      (["a b", "a", "c d e", "f", "g h"] : List String).length =
        numResponses (clampPrecision (19/20))) ∧
    numResponses (clampPrecision (19/20)) = 5 ∧
    ∃ i, i < (["a b", "a", "c d e", "f", "g h"] : List String).length ∧
      selectReplyByPrecision ["a b", "a", "c d e", "f", "g h"] (clampPrecision (19/20)) 0 =
        (["a b", "a", "c d e", "f", "g h"] : List String).getD i "" ∧
      (∀ j, j < (["a b", "a", "c d e", "f", "g h"] : List String).length →
        wordCount ((["a b", "a", "c d e", "f", "g h"] : List String).getD i "") ≤
          wordCount ((["a b", "a", "c d e", "f", "g h"] : List String).getD j "")) ∧
      (∀ j, j < i →
        wordCount ((["a b", "a", "c d e", "f", "g h"] : List String).getD i "") <
          wordCount ((["a b", "a", "c d e", "f", "g h"] : List String).getD j "")) :=
  ⟨⟨by norm_num, by norm_num [clampPrecision, numResponses]⟩,
    C3_high_precision_shortest (19/20) 0 ["a b", "a", "c d e", "f", "g h"]
      (by norm_num) (by norm_num [clampPrecision, numResponses])⟩

theorem selPass_perm (r : α → α → Prop) [DecidableRel r] (x : α) (ys : List α) :
    ((selPass r x ys).1 :: (selPass r x ys).2).Perm (x :: ys) := by
  induction ys generalizing x with
  | nil => exact .refl _
  | cons y ys ih =>
    simp only [selPass]
    split
    · show ((selPass r x ys).1 :: y :: (selPass r x ys).2).Perm (x :: y :: ys)
      exact ((List.Perm.swap y (selPass r x ys).1 (selPass r x ys).2).trans
        ((ih x).cons y)).trans (List.Perm.swap x y ys)
    · show ((selPass r y ys).1 :: x :: (selPass r y ys).2).Perm (x :: y :: ys)
      exact (List.Perm.swap x (selPass r y ys).1 (selPass r y ys).2).trans ((ih y).cons x)

theorem selPass_rel (r : α → α → Prop) [DecidableRel r]
    (htot : ∀ a b, r a b ∨ r b a) (htrans : ∀ a b c, r a b → r b c → r a c)
    (ys : List α) : ∀ x : α, ∀ z ∈ x :: ys, r (selPass r x ys).1 z := by
  induction ys with
  | nil =>
    intro x z hz
    simp only [List.mem_singleton] at hz
    subst hz
    exact (htot z z).elim id id
  | cons y ys ih =>
    intro x z hz
    simp only [selPass]
    split
    case isTrue hxy =>
      show r (selPass r x ys).1 z
      rcases List.mem_cons.mp hz with heq | hz1
      · rw [heq]
        exact ih x x (List.mem_cons_self _ _)
      rcases List.mem_cons.mp hz1 with heq | hz2
      · rw [heq]
        exact htrans _ x y (ih x x (List.mem_cons_self _ _)) hxy
      · exact ih x z (List.mem_cons_of_mem _ hz2)
    case isFalse hxy =>
      show r (selPass r y ys).1 z
      have hyx : r y x := (htot x y).elim (fun hc => absurd hc hxy) id
      rcases List.mem_cons.mp hz with heq | hz1
      · rw [heq]
        exact htrans _ y x (ih y y (List.mem_cons_self _ _)) hyx
      rcases List.mem_cons.mp hz1 with heq | hz2
      · rw [heq]
        exact ih y y (List.mem_cons_self _ _)
      · exact ih y z (List.mem_cons_of_mem _ hz2)

theorem selSort_perm (r : α → α → Prop) [DecidableRel r] (l : List α) :
    (selSort r l).Perm l := by
  have haux : ∀ n (l : List α), l.length ≤ n → (selSort r l).Perm l := by
    intro n
    induction n with
    | zero =>
      intro l hl
      have h : l = [] := List.length_eq_zero.mp (by omega)
      subst h
      rw [selSort]
    | succ n ih =>
      intro l hl
      match l with
      | [] => rw [selSort]
      | x :: xs =>
        rw [selSort]
        have hp := selPass_perm r x xs
        have hlen : (selPass r x xs).2.length ≤ n := by
          rw [selPass_length]
          simpa using hl
        exact ((ih _ hlen).cons _).trans hp
  exact haux l.length l le_rfl

theorem selSort_sorted (r : α → α → Prop) [DecidableRel r]
    (htot : ∀ a b, r a b ∨ r b a) (htrans : ∀ a b c, r a b → r b c → r a c)
    (l : List α) : (selSort r l).Sorted r := by
  have haux : ∀ n (l : List α), l.length ≤ n → (selSort r l).Sorted r := by
    intro n
    induction n with
    | zero =>
      intro l hl
      have h : l = [] := List.length_eq_zero.mp (by omega)
      subst h
      rw [selSort]
      exact List.sorted_nil
    | succ n ih =>
      intro l hl
      match l with
      | [] =>
        rw [selSort]
        exact List.sorted_nil
      | x :: xs =>
        rw [selSort, List.sorted_cons]
        constructor
        · intro b hb
          have hb1 : b ∈ (selPass r x xs).2 := (selSort_perm r _).mem_iff.mp hb
          have hb2 : b ∈ x :: xs :=
            (selPass_perm r x xs).mem_iff.mp (List.mem_cons_of_mem _ hb1)
          exact selPass_rel r htot htrans xs x b hb2
        · exact ih _ (by rw [selPass_length]; simpa using hl)
  exact haux l.length l le_rfl

/-- C4: with request precision in (0.7, 0.9] the Predict pipeline generates
exactly 3 candidates and `selectReplyByPrecision` returns the element at
index `count/2` of a sorted-by-word-count ordering of the candidates. -/
theorem C4_mid_precision_median (p : ℚ) (rnd : Nat) (replies : List String)
    (hp1 : 7/10 < p) (hp2 : p ≤ 9/10)
    (hlen : replies.length = numResponses (clampPrecision p)) :
    numResponses (clampPrecision p) = 3 ∧
    ∃ l : List String, l.Perm replies ∧
      l.Sorted (fun a b => wordCount a ≤ wordCount b) ∧
      selectReplyByPrecision replies (clampPrecision p) rnd = l.getD (l.length / 2) "" := by
  have hclamp : clampPrecision p = p := by
    unfold clampPrecision
    rw [if_neg (by linarith), if_neg (by linarith)]
  have h3 : numResponses (clampPrecision p) = 3 := by
    unfold numResponses
    rw [hclamp, if_pos hp1, if_neg (by linarith)]
  refine ⟨h3, ?_⟩
  rw [h3] at hlen
  rw [hclamp] at *
  match replies, hlen with
  | r0 :: r1 :: rs, hlen =>
    have hsel : selectReplyByPrecision (r0 :: r1 :: rs) p rnd =
        ((selSort (fun a b : String × Nat => a.2 ≤ b.2)
            ((r0 :: r1 :: rs).map (fun s => (s, wordCount s)))).getD
          ((selSort (fun a b : String × Nat => a.2 ≤ b.2)
            ((r0 :: r1 :: rs).map (fun s => (s, wordCount s)))).length / 2) ("", 0)).1 := by
      simp only [selectReplyByPrecision, if_neg (by linarith : ¬ (9:ℚ)/10 < p),
        if_pos hp1]
    set pairs := (r0 :: r1 :: rs).map (fun s => (s, wordCount s)) with hpairs
    set sorted := selSort (fun a b : String × Nat => a.2 ≤ b.2) pairs with hsorted
    have htot : ∀ a b : String × Nat, a.2 ≤ b.2 ∨ b.2 ≤ a.2 := fun a b => Nat.le_total a.2 b.2
    have htrans : ∀ a b c : String × Nat, a.2 ≤ b.2 → b.2 ≤ c.2 → a.2 ≤ c.2 :=
      fun _ _ _ => Nat.le_trans
    have hperm : sorted.Perm pairs := selSort_perm _ pairs
    have hsort : sorted.Sorted (fun a b : String × Nat => a.2 ≤ b.2) :=
      selSort_sorted _ htot htrans pairs
    have hsnd : ∀ q ∈ sorted, q.2 = wordCount q.1 := by
      intro q hq
      have : q ∈ pairs := hperm.mem_iff.mp hq
      rw [hpairs] at this
      obtain ⟨s, _, rfl⟩ := List.mem_map.mp this
      rfl
    refine ⟨sorted.map Prod.fst, ?_, ?_, ?_⟩
    · have := hperm.map Prod.fst
      rw [hpairs, List.map_map] at this
      have h2 : (Prod.fst ∘ fun s : String => (s, wordCount s)) = id := rfl
      rw [h2, List.map_id] at this
      exact this
    · rw [List.Sorted, List.pairwise_map]
      exact (List.Pairwise.imp_of_mem (fun ha hb hr => by
        rw [hsnd _ ha, hsnd _ hb] at hr
        exact hr) hsort)
    · rw [hsel]
      have hlen3 : sorted.length = 3 := by
        rw [hperm.length_eq, hpairs]
        simpa using hlen
      have hidx : sorted.length / 2 < sorted.length := by omega
      have hidx2 : (sorted.map Prod.fst).length / 2 < (sorted.map Prod.fst).length := by
        simpa using hidx
      rw [List.getD_eq_getElem?_getD, List.getElem?_eq_getElem hidx,
        List.getD_eq_getElem?_getD, List.getElem?_eq_getElem hidx2]
      simp [List.getElem_map]

theorem C4_witness :
    ((7:ℚ)/10 < 8/10 ∧ (8:ℚ)/10 ≤ 9/10 ∧
      (["a b", "a", "a b c"] : List String).length = numResponses (clampPrecision (8/10))) ∧
    numResponses (clampPrecision (8/10)) = 3 ∧
    ∃ l : List String, l.Perm ["a b", "a", "a b c"] ∧
      l.Sorted (fun a b => wordCount a ≤ wordCount b) ∧
      selectReplyByPrecision ["a b", "a", "a b c"] (clampPrecision (8/10)) 0 =
        l.getD (l.length / 2) "" :=
  ⟨⟨by norm_num, by norm_num, by norm_num [clampPrecision, numResponses]⟩,
    C4_mid_precision_median (8/10) 0 ["a b", "a", "a b c"] (by norm_num) (by norm_num)
      (by norm_num [clampPrecision, numResponses])⟩

theorem fields_good : ∀ cs acc : List Char, (∀ c ∈ acc, goIsSpace c = false) →
    ∀ w ∈ fieldsAux acc cs, w ≠ [] ∧ ∀ c ∈ w, goIsSpace c = false := by
  intro cs
  induction cs with
  | nil =>
    intro acc hacc w hw
    simp only [fieldsAux] at hw
    split at hw
    · simp at hw
    case isFalse hne =>
      simp only [List.mem_singleton] at hw
      subst hw
      constructor
      · simp only [ne_eq, List.reverse_eq_nil_iff]
        intro h
        rw [h] at hne
        simp at hne
      · intro c hc
        exact hacc c (List.mem_reverse.mp hc)
  | cons c cs ih =>
    intro acc hacc w hw
    simp only [fieldsAux] at hw
    by_cases hsp : goIsSpace c = true
    · rw [if_pos hsp] at hw
      split at hw
      · exact ih [] (by simp) w hw
      · next hne =>
        rcases List.mem_cons.mp hw with rfl | hw1
        · constructor
          · simp only [ne_eq, List.reverse_eq_nil_iff]
            intro h
            rw [h] at hne
            simp at hne
          · intro d hd
            exact hacc d (List.mem_reverse.mp hd)
        · exact ih [] (by simp) w hw1
    · rw [if_neg hsp] at hw
      refine ih (c :: acc) ?_ w hw
      intro d hd
      rcases List.mem_cons.mp hd with rfl | hd1
      · exact Bool.not_eq_true _ ▸ hsp
      · exact hacc d hd1

theorem fieldsAux_append_word : ∀ w acc cs : List Char,
    (∀ c ∈ w, goIsSpace c = false) →
    fieldsAux acc (w ++ cs) = fieldsAux (w.reverse ++ acc) cs := by
  intro w
  induction w with
  | nil => intro acc cs _; simp
  | cons c w ih =>
    intro acc cs hw
    have hc : goIsSpace c = false := hw c (List.mem_cons_self _ _)
    simp only [List.cons_append, fieldsAux, hc, Bool.false_eq_true, if_false, List.append_eq]
    rw [ih (c :: acc) cs (fun d hd => hw d (List.mem_cons_of_mem _ hd))]
    simp [List.append_assoc]

theorem fields_joinWords : ∀ ws : List (List Char),
    (∀ w ∈ ws, w ≠ [] ∧ ∀ c ∈ w, goIsSpace c = false) →
    fields (joinWords ws) = ws := by
  intro ws
  induction ws with
  | nil => intro _; rfl
  | cons w ws ih =>
    intro hws
    obtain ⟨hwne, hwsp⟩ := hws w (List.mem_cons_self _ _)
    match ws with
    | [] =>
      show fields (joinWords [w]) = [w]
      unfold fields joinWords
      rw [show w = w ++ ([] : List Char) by simp, fieldsAux_append_word w [] [] hwsp]
      simp only [List.append_nil, fieldsAux]
      rw [if_neg (by simp [hwne])]
      simp
    | w1 :: ws1 =>
      show fields (w ++ ' ' :: joinWords (w1 :: ws1)) = w :: w1 :: ws1
      unfold fields
      rw [fieldsAux_append_word w [] _ hwsp]
      have hsp : goIsSpace ' ' = true := by decide
      simp only [List.append_nil, fieldsAux, hsp, if_pos]
      rw [if_neg (by simp [hwne]), List.reverse_reverse]
      have := ih (fun v hv => hws v (List.mem_cons_of_mem _ hv))
      unfold fields at this
      rw [this]

/-- C8: for a positive `max_words`, the reply returned by `limitWords` has
the first `max_words` fields of the original and nothing more (so at most
`max_words` words, no ellipsis), and a reply within the bound is returned
as is. -/
theorem C8_limit_words (text : String) (m : Int) (hm : 0 < m) :
    fields (limitWords text m).toList = (fields text.toList).take m.toNat ∧
    wordCount (limitWords text m) ≤ m.toNat ∧
    ((wordCount text : Int) ≤ m → limitWords text m = text) := by
  have hnot : ¬ m ≤ 0 := by omega
  by_cases hle : (((fields text.toList).length : Int) ≤ m)
  · have heq : limitWords text m = text := by
      unfold limitWords
      rw [if_neg hnot, if_pos hle]
    have hlen : (fields text.toList).length ≤ m.toNat := by omega
    refine ⟨?_, ?_, fun _ => heq⟩
    · rw [heq, List.take_of_length_le hlen]
    · rw [heq]
      exact hlen
  · have heq : limitWords text m = ⟨joinWords ((fields text.toList).take m.toNat)⟩ := by
      unfold limitWords
      rw [if_neg hnot, if_neg hle]
    have hgood : ∀ w ∈ (fields text.toList).take m.toNat,
        w ≠ [] ∧ ∀ c ∈ w, goIsSpace c = false := by
      intro w hw
      exact fields_good text.toList [] (by simp) w (List.mem_of_mem_take hw)
    have hf : fields ((⟨joinWords ((fields text.toList).take m.toNat)⟩ : String).toList) =
        (fields text.toList).take m.toNat := fields_joinWords _ hgood
    refine ⟨?_, ?_, fun hcon => absurd hcon hle⟩
    · rw [heq]
      exact hf
    · show (fields (limitWords text m).toList).length ≤ m.toNat
      rw [heq, hf, List.length_take]
      omega

theorem C8_witness :
    (0:Int) < 2 ∧
    (fields (limitWords "the quick brown fox" 2).toList =
      (fields ("the quick brown fox").toList).take (2:Int).toNat ∧
    wordCount (limitWords "the quick brown fox" 2) ≤ (2:Int).toNat ∧
    ((wordCount "the quick brown fox" : Int) ≤ 2 → limitWords "the quick brown fox" 2 = "the quick brown fox")) ∧
    limitWords "the quick brown fox" 2 = "the quick" :=
  ⟨by decide, C8_limit_words "the quick brown fox" 2 (by decide), by decide⟩

theorem findNodeCC_store (st : Store) (ids : List Nat) :
    ∀ nid st1, findNodeContainingContext st ids = .ok (nid, st1) →
      st1.tokens = st.tokens ∧ st1.edges = st.edges ∧
      (st1.nodes = st.nodes ∨
        (ids.length = st.order ∧
          st1.nodes = st.nodes ++ [⟨freshId (st.nodes.map (fun n => n.id)), ids, 0⟩])) := by
  intro nid st1 h
  unfold findNodeContainingContext at h
  split at h
  case isTrue hord =>
    unfold GetNodeByTokens at h
    rw [if_neg (by simp [hord])] at h
    cases hfind : st.nodes.find? (fun n => n.tokens = ids) with
    | some n =>
      rw [hfind] at h
      simp only [Except.ok.injEq, Prod.mk.injEq] at h
      rw [← h.2]
      exact ⟨rfl, rfl, Or.inl rfl⟩
    | none =>
      rw [hfind] at h
      simp only [Except.ok.injEq, Prod.mk.injEq] at h
      rw [← h.2]
      exact ⟨rfl, rfl, Or.inr ⟨hord, rfl⟩⟩
  case isFalse hord =>
    simp only [] at h
    cases hfind : st.nodes.find?
        (fun n => (ids.take (min ids.length st.order)).contains (n.tokens.getD 0 0)) with
    | some n =>
      rw [hfind] at h
      simp only [Except.ok.injEq, Prod.mk.injEq] at h
      rw [← h.2]
      exact ⟨rfl, rfl, Or.inl rfl⟩
    | none =>
      rw [hfind] at h
      simp only [Except.ok.injEq, Prod.mk.injEq] at h
      rw [← h.2]
      exact ⟨rfl, rfl, Or.inl rfl⟩

/-- C1 (amended): `FindEdgesForContext` leaves tokens and edges untouched
and either leaves the nodes untouched too, or — when the context length
equals the store order and the tuple is new — appends one node row with
count 0. -/
theorem C1_amended_frame (st : Store) (ids : List Nat) :
    (FindEdgesForContext st ids).2.tokens = st.tokens ∧
    (FindEdgesForContext st ids).2.edges = st.edges ∧
    ((FindEdgesForContext st ids).2.nodes = st.nodes ∨
      (ids.length = st.order ∧
        (FindEdgesForContext st ids).2.nodes =
          st.nodes ++ [⟨freshId (st.nodes.map (fun n => n.id)), ids, 0⟩])) := by
  by_cases hlen : ids.length < 2
  · simp [FindEdgesForContext, hlen]
  · rcases hfind : findNodeContainingContext st ids with e | ⟨nid, st1⟩
    · simp [FindEdgesForContext, hlen, hfind]
    · have hframe := findNodeCC_store st ids nid st1 hfind
      by_cases hnid : nid = 0
      · simp only [FindEdgesForContext, if_neg hlen, hfind, hnid, if_pos]
        exact hframe
      · simp only [FindEdgesForContext, if_neg hlen, hfind, if_neg hnid]
        exact hframe

/-- C1 counterexample: on an empty order-2 store, the supposedly read-only
`FindEdgesForContext` changes the store (it inserts a node row). -/
theorem C1_counterexample :
    (FindEdgesForContext (⟨2, [], [], []⟩ : Store) [1, 2]).2 ≠ (⟨2, [], [], []⟩ : Store) := by
  decide

theorem findEdgesFromNode_spec (st : Store) (nid : Nat) :
    ∃ es : List Edge, findEdgesFromNode st nid = es.map (fun e => e.id) ∧
      es.length ≤ 20 ∧ (∀ e ∈ es, e ∈ st.edges ∧ e.prevNode = nid) ∧
      es.Sorted (fun a b : Edge => b.count ≤ a.count) := by
  refine ⟨(selSort (fun a b : Edge => b.count ≤ a.count)
    (st.edges.filter (fun e => decide (e.prevNode = nid)))).take 20, rfl, ?_, ?_, ?_⟩
  · simp [List.length_take]
  · intro e he
    have h1 : e ∈ selSort (fun a b : Edge => b.count ≤ a.count)
        (st.edges.filter (fun e => decide (e.prevNode = nid))) := List.mem_of_mem_take he
    have h2 : e ∈ st.edges.filter (fun e => decide (e.prevNode = nid)) :=
      (selSort_perm _ _).mem_iff.mp h1
    have h3 := List.mem_filter.mp h2
    exact ⟨h3.1, by simpa using h3.2⟩
  · exact List.Pairwise.sublist (List.take_sublist _ _)
      (selSort_sorted (fun a b : Edge => b.count ≤ a.count)
        (fun a b => Nat.le_total b.count a.count)
        (fun _ _ _ hab hbc => Nat.le_trans hbc hab) _)

/-- C2 (amended): `FindEdgesForContext` fails when fewer than 2 context ids
are supplied, and when the context length differs from the order and no
node's first token is among the leading context ids; when the context
length equals the order and no node matches the tuple, the call does NOT
fail with `NoMatch` — the node is created and the call succeeds (third
clause; see also the counterexample); on success every returned edge id is
an outgoing edge of one located node, at most 20 of them, ordered by
descending count. -/
theorem C2_amended (st : Store) (ids : List Nat) :
    (ids.length < 2 → (FindEdgesForContext st ids).1 = .error "context too short") ∧
    (2 ≤ ids.length → ids.length ≠ st.order →
      st.nodes.find? (fun n => (ids.take (min ids.length st.order)).contains (n.tokens.getD 0 0)) =
        none →
      (FindEdgesForContext st ids).1 = .error "no matching context found") ∧
    (2 ≤ ids.length → ids.length = st.order →
      st.nodes.find? (fun n => n.tokens = ids) = none →
      ∃ edges, (FindEdgesForContext st ids).1 = .ok edges) ∧
    (∀ edges, (FindEdgesForContext st ids).1 = .ok edges →
      edges.length ≤ 20 ∧
      ∃ nid es, edges = List.map (fun e => e.id) es ∧
        (∀ e ∈ es, e ∈ (FindEdgesForContext st ids).2.edges ∧ e.prevNode = nid) ∧
        es.Sorted (fun a b : Edge => b.count ≤ a.count)) := by
  refine ⟨?_, ?_, ?_, ?_⟩
  · intro hlt
    simp [FindEdgesForContext, hlt]
  · intro hge hord hfind
    have hlt : ¬ ids.length < 2 := by omega
    have hcc : findNodeContainingContext st ids = .ok (0, st) := by
      unfold findNodeContainingContext
      rw [if_neg hord]
      simp only []
      rw [hfind]
    simp [FindEdgesForContext, hlt, hcc]
  · intro hge hord hfind
    have hlt : ¬ ids.length < 2 := by omega
    have hcc : findNodeContainingContext st ids =
        .ok (freshId (st.nodes.map (fun n => n.id)),
          { st with nodes :=
              st.nodes ++ [⟨freshId (st.nodes.map (fun n => n.id)), ids, 0⟩] }) := by
      unfold findNodeContainingContext
      rw [if_pos hord]
      unfold GetNodeByTokens
      rw [if_neg (by simp [hord]), hfind]
    have hnid : freshId (st.nodes.map (fun n => n.id)) ≠ 0 := by
      unfold freshId
      omega
    exact ⟨findEdgesFromNode
        { st with nodes := st.nodes ++ [⟨freshId (st.nodes.map (fun n => n.id)), ids, 0⟩] }
        (freshId (st.nodes.map (fun n => n.id))),
      by simp [FindEdgesForContext, hlt, hcc, hnid]⟩
  · intro edges h
    by_cases hlt : ids.length < 2
    · simp [FindEdgesForContext, hlt] at h
    rcases hfind : findNodeContainingContext st ids with e | ⟨nid, st1⟩
    · simp [FindEdgesForContext, hlt, hfind] at h
    by_cases hnid : nid = 0
    · simp [FindEdgesForContext, hlt, hfind, hnid] at h
    have hres : (FindEdgesForContext st ids).1 = .ok (findEdgesFromNode st1 nid) ∧
        (FindEdgesForContext st ids).2 = st1 := by
      constructor <;> simp [FindEdgesForContext, hlt, hfind, hnid]
    rw [hres.1] at h
    have hedges : edges = findEdgesFromNode st1 nid := by
      simpa using h.symm
    obtain ⟨es, heq, hle, hmem, hsort⟩ := findEdgesFromNode_spec st1 nid
    subst hedges
    refine ⟨by simp [heq, hle], nid, es, heq, ?_, hsort⟩
    intro e he
    rw [hres.2]
    exact hmem e he

/-- C2 counterexample: with an order-2 store holding no nodes at all, a
2-token context does not fail with `NoMatch` — the call succeeds with an
empty edge list (after creating the node). -/
theorem C2_counterexample :
    (⟨2, [], [], []⟩ : Store).nodes = [] ∧
    (FindEdgesForContext (⟨2, [], [], []⟩ : Store) [1, 2]).1 = .ok [] := by
  refine ⟨rfl, ?_⟩
  simp [FindEdgesForContext, findNodeContainingContext, GetNodeByTokens, findEdgesFromNode,
    freshId, selSort]

theorem cons_getD_mem (c : α) (cs : List α) (i : Nat) : (c :: cs).getD i c ∈ c :: cs := by
  rw [List.getD_eq_getElem?_getD]
  cases h : (c :: cs)[i]? with
  | none => simp
  | some a =>
    simp only [Option.getD_some]
    exact List.getElem?_mem h

theorem mem_of_mem_sampleEdges {l : List Edge} {sel : List Nat} {e : Edge}
    (h : e ∈ sampleEdges l sel) : e ∈ l := by
  unfold sampleEdges at h
  obtain ⟨j, _, hj⟩ := List.mem_filterMap.mp h
  exact List.getElem?_mem hj

theorem walkAux_length (st : Store) (endId : Nat) (direction : Bool)
    (sel : Nat → List Nat) (rnd : Nat → Nat) : ∀ fuel step cur,
    (walkAux st endId direction sel rnd fuel step cur).length ≤ fuel := by
  intro fuel
  induction fuel with
  | zero =>
    intro step cur
    simp [walkAux]
  | succ fuel ih =>
    intro step cur
    simp only [walkAux]
    split
    · simp
    · next c cs heq =>
      set chosen := (c :: cs).getD (if 1 < cs.length + 1 then rnd step % (cs.length + 1) else 0) c
        with hchdef
      simp only [List.length_cons, Nat.add_le_add_iff_right]
      split
      · simp
      · exact ih _ _

theorem walkAux_chain (st : Store) (endId : Nat) (direction : Bool)
    (sel : Nat → List Nat) (rnd : Nat → Nat) : ∀ fuel step cur,
    IsChain direction cur (walkAux st endId direction sel rnd fuel step cur) ∧
    ∀ e ∈ walkAux st endId direction sel rnd fuel step cur,
      e ∈ st.edges ∧ e.prevNode ≠ e.nextNode := by
  intro fuel
  induction fuel with
  | zero =>
    intro step cur
    exact ⟨trivial, by simp [walkAux]⟩
  | succ fuel ih =>
    intro step cur
    simp only [walkAux]
    split
    · exact ⟨trivial, by simp⟩
    · next c cs heq =>
      set chosen := (c :: cs).getD (if 1 < cs.length + 1 then rnd step % (cs.length + 1) else 0) c
        with hchdef
      have hchosen : chosen ∈ c :: cs := cons_getD_mem _ _ _
      have hcands : chosen ∈ (sampleEdges (incidentEdges st direction cur) (sel step)).filter
          (fun e => decide (walkTarget direction e ≠ cur)) := heq ▸ hchosen
      have hfil := List.mem_filter.mp hcands
      have htgt : walkTarget direction chosen ≠ cur := by simpa using hfil.2
      have hinc := List.mem_filter.mp (mem_of_mem_sampleEdges hfil.1)
      have hmem : chosen ∈ st.edges := hinc.1
      have hsrc : (if direction then chosen.prevNode else chosen.nextNode) = cur := by
        simpa using hinc.2
      have hne : chosen.prevNode ≠ chosen.nextNode := by
        cases direction with
        | true =>
          simp only [walkTarget] at htgt
          simp at htgt hsrc
          omega
        | false =>
          simp only [walkTarget] at htgt
          simp at htgt hsrc
          omega
      constructor
      · refine ⟨hsrc, ?_⟩
        split
        · trivial
        · exact (ih (step + 1) (walkTarget direction chosen)).1
      · intro e he
        rcases List.mem_cons.mp he with heqe | he1
        · rw [heqe]
          exact ⟨hmem, hne⟩
        · revert he1
          split
          · intro h0
            simp at h0
          · intro he1
            exact (ih (step + 1) (walkTarget direction chosen)).2 e he1

/-- C6: every random walk returns at most 15 edges (and, the walk being a
total function into a plain list, it terminates and never errors: the Go
error paths are storage failures, outside the pure model); a dead end at
the very first step returns the empty path. -/
theorem C6_random_walk_bounded (st : Store) (startId endId : Nat) (direction : Bool)
    (sel : Nat → List Nat) (rnd : Nat → Nat) :
    (SearchRandomWalk st startId endId direction sel rnd).length ≤ 15 ∧
    ((sampleEdges (incidentEdges st direction startId) (sel 0)).filter
        (fun e => decide (walkTarget direction e ≠ startId)) = [] →
      SearchRandomWalk st startId endId direction sel rnd = []) := by
  constructor
  · unfold SearchRandomWalk SearchRandomWalkRows
    simpa using walkAux_length st endId direction sel rnd 15 0 startId
  · intro hdead
    unfold SearchRandomWalk SearchRandomWalkRows
    simp only [walkAux, hdead]
    rfl

/-- C10: the ids returned by a random walk are the ids of edges of the
store forming a connected chain anchored at the start node, none of which
is a self-loop. -/
theorem C10_walk_chain (st : Store) (startId endId : Nat) (direction : Bool)
    (sel : Nat → List Nat) (rnd : Nat → Nat) :
    ∃ es : List Edge,
      SearchRandomWalk st startId endId direction sel rnd = es.map (fun e => e.id) ∧
      IsChain direction startId es ∧
      ∀ e ∈ es, e ∈ st.edges ∧ e.prevNode ≠ e.nextNode := by
  refine ⟨SearchRandomWalkRows st startId endId direction sel rnd, rfl, ?_, ?_⟩
  · exact (walkAux_chain st endId direction sel rnd 15 0 startId).1
  · exact (walkAux_chain st endId direction sel rnd 15 0 startId).2

theorem C1_witness :
    (FindEdgesForContext (⟨2, [], [], []⟩ : Store) [1, 2]).2.tokens =
      (⟨2, [], [], []⟩ : Store).tokens ∧
    (FindEdgesForContext (⟨2, [], [], []⟩ : Store) [1, 2]).2.edges =
      (⟨2, [], [], []⟩ : Store).edges ∧
    ((FindEdgesForContext (⟨2, [], [], []⟩ : Store) [1, 2]).2.nodes =
        (⟨2, [], [], []⟩ : Store).nodes ∨
      (([1, 2] : List Nat).length = (⟨2, [], [], []⟩ : Store).order ∧
        (FindEdgesForContext (⟨2, [], [], []⟩ : Store) [1, 2]).2.nodes =
          (⟨2, [], [], []⟩ : Store).nodes ++
            [⟨freshId ((⟨2, [], [], []⟩ : Store).nodes.map (fun n => n.id)), [1, 2], 0⟩])) :=
  C1_amended_frame (⟨2, [], [], []⟩ : Store) [1, 2]

theorem C2_witness :
    (FindEdgesForContext (⟨2, [], [], []⟩ : Store) [1, 2, 3]).1 =
      .error "no matching context found" ∧
    ∃ edges, (FindEdgesForContext (⟨2, [], [], [⟨7, 1, 2, true, 3⟩]⟩ : Store) [5, 6]).1 =
      .ok edges :=
  ⟨(C2_amended (⟨2, [], [], []⟩ : Store) [1, 2, 3]).2.1 (by decide) (by decide) (by decide),
   (C2_amended (⟨2, [], [], [⟨7, 1, 2, true, 3⟩]⟩ : Store) [5, 6]).2.2.1
     (by decide) (by decide) (by decide)⟩

theorem C6_witness :
    (SearchRandomWalk (⟨1, [], [], []⟩ : Store) 1 2 true (fun _ => []) (fun _ => 0)).length ≤ 15 ∧
    ((sampleEdges (incidentEdges (⟨1, [], [], []⟩ : Store) true 1) ([] : List Nat)).filter
        (fun e => decide (walkTarget true e ≠ 1)) = [] →
      SearchRandomWalk (⟨1, [], [], []⟩ : Store) 1 2 true (fun _ => []) (fun _ => 0) = []) :=
  C6_random_walk_bounded (⟨1, [], [], []⟩ : Store) 1 2 true (fun _ => []) (fun _ => 0)

theorem C10_witness :
    ∃ es : List Edge,
      SearchRandomWalk (⟨1, [], [], []⟩ : Store) 1 2 true (fun _ => []) (fun _ => 0) =
        es.map (fun e => e.id) ∧
      IsChain true 1 es ∧
      ∀ e ∈ es, e ∈ (⟨1, [], [], []⟩ : Store).edges ∧ e.prevNode ≠ e.nextNode :=
  C10_walk_chain (⟨1, [], [], []⟩ : Store) 1 2 true (fun _ => []) (fun _ => 0)

end Cobutler
